import Mathlib

/-!
Verification of the retrieval layer of the ISEM-770 RAG notebooks
(`04_context_enriched_ragKemi.ipynb` and `03_chunk_size_selectorKemi.ipynb`).

The embedding models the core functions of the notebooks:
`chunk_text`, `chunk_text_with_headers` (with the LLM header generator
injected as an external collaborator), `cosine_similarity`,
`context_enriched_search`, `retrieve_relevant_chunks` and
`semantic_search`.  External collaborators (the OpenAI embedding and
completion clients) are passed in as values: a query arrives as its
already-computed embedding vector, and the header generator is a
function argument.  Floating-point numbers are modelled by real
numbers; the two places where IEEE semantics matters are modelled
explicitly: division by a zero norm in `cosine_similarity`
(`cosine_similarity_ieee`), and the binary64 rounding of every
arithmetic operation, which makes the program's self-similarity
deviate from 1.0 (`cosine_similarity64`, built on the
round-to-nearest-even model `rnd`).
-/

namespace Rag

/-- Errors a run can surface.  `valueError` and `indexError` model the
Python exceptions actually raised by the notebook code
(`range() arg 3 must not be zero`, list index out of range);
`completionUnavailable` models a failing LLM collaborator call.
`invalidConfiguration`, `emptyCorpus` and `degenerateVector` are the
specification's error taxonomy (spec section 7); the code model never
produces them, they exist so claims naming them can be stated. -/
inductive Err where
  | valueError
  | indexError
  | completionUnavailable
  | invalidConfiguration
  | emptyCorpus
  | degenerateVector
deriving DecidableEq, Repr

/-- A floating-point result: either a finite real value or a non-finite
value (nan/inf).  Used to model the IEEE outcome of a division. -/
inductive FVal where
  | num (x : ℝ)
  | nan

/-- Float division as numpy performs it: dividing by zero does not
raise, it produces a non-finite value (nan for 0.0/0.0, inf otherwise)
together with a RuntimeWarning, and that value propagates. -/
noncomputable def fdiv (a b : ℝ) : FVal :=
  if b = 0 then FVal.nan else FVal.num (a / b)

/-- Model of `np.dot` on two 1-d vectors: sum of pointwise products. -/
def dot (v1 v2 : List ℝ) : ℝ :=
  (List.zipWith (fun a b => a * b) v1 v2).sum

/-- Model of `np.linalg.norm`: the Euclidean norm, the square root of the sum of
squares. -/
noncomputable def npNorm (v : List ℝ) : ℝ :=
  Real.sqrt (dot v v)

/-- Model of `cosine_similarity(vec1, vec2)` from both notebooks:
`np.dot(vec1, vec2) / (np.linalg.norm(vec1) * np.linalg.norm(vec2))`,
on the finite path (nonzero norms), modelled over ℝ.  Lean's total
real division makes this definition total; the zero-norm case is
modelled faithfully by `cosine_similarity_ieee` below. -/
noncomputable def cosine_similarity (vec1 vec2 : List ℝ) : ℝ :=
  dot vec1 vec2 / (npNorm vec1 * npNorm vec2)

/-- The same source expression with the IEEE division-by-zero outcome
made explicit: when either vector has zero norm the denominator is
`0.0` and numpy evaluates the division to a non-finite value (in fact
`0.0/0.0 = nan`, since a vector of zero norm is the zero vector and
the numerator is then `0.0`), emitting only a RuntimeWarning. -/
noncomputable def cosine_similarity_ieee (vec1 vec2 : List ℝ) : FVal :=
  fdiv (dot vec1 vec2) (npNorm vec1 * npNorm vec2)

/-- Python `range(0, stop, step)` for an arbitrary integer `step`, as
used by `chunk_text`'s loop header `range(0, len(text), n - overlap)`:
`step = 0` raises `ValueError: range() arg 3 must not be zero`;
a negative `step` counts down from 0 and is empty because `stop ≥ 0`;
a positive `step` yields `⌈stop / step⌉` offsets `0, step, 2*step, …`. -/
def pyRange0 (stop : ℕ) (step : ℤ) : Except Err (List ℕ) :=
  if step = 0 then Except.error Err.valueError
  else if step < 0 then Except.ok []
  else Except.ok (List.range' 0 ((stop + step.toNat - 1) / step.toNat) step.toNat)

/-- Model of `chunk_text(text, n, overlap)` (identical in both notebooks):
`for i in range(0, len(text), n - overlap): chunks.append(text[i:i + n])`.
Text is modelled as a list of characters; `text[i:i+n]` is
`(text.drop i).take n`.  There is no validation of `n`/`overlap`. -/
def chunk_text (text : List Char) (n overlap : ℕ) : Except Err (List (List Char)) :=
  (pyRange0 text.length ((n : ℤ) - (overlap : ℤ))).map
    (fun idxs => idxs.map (fun i => (text.drop i).take n))

/-- A chunk with its generated header, the dict
`{"header": header, "text": chunk}` built by `chunk_text_with_headers`. -/
structure HChunk where
  header : String
  text : List Char
deriving DecidableEq

/-- Model of `chunk_text_with_headers(text, n, overlap)`: the same chunking loop,
but each chunk's header is produced by the LLM collaborator
`generate_chunk_header` (injected as a function).  The body has no
try/except: an exception from the collaborator propagates and aborts
the whole loop, discarding every chunk built so far. -/
def chunk_text_with_headers (text : List Char) (n overlap : ℕ)
    (generate_chunk_header : List Char → Except Err String) :
    Except Err (List HChunk) := do
  let idxs ← pyRange0 text.length ((n : ℤ) - (overlap : ℤ))
  idxs.mapM (fun i => do
    let chunk := (text.drop i).take n
    let header ← generate_chunk_header chunk
    pure ⟨header, chunk⟩)

/-- The comparison realized by Python's
`list.sort(key=lambda x: x[1], reverse=True)`: a stable sort that puts
`a` before `b` exactly when `b`'s score does not exceed `a`'s.
CPython's Timsort is stable, so elements with equal scores keep their
original relative order; a stable insertion sort has the same
input/output behaviour. -/
def descPair {α : Type} (a b : α × ℝ) : Prop := b.2 ≤ a.2

/-- The comparison of `np.argsort` (ascending keys). -/
def ascPair {α : Type} (a b : α × ℝ) : Prop := a.2 ≤ b.2

noncomputable instance {α : Type} : DecidableRel (@descPair α) :=
  fun a b => inferInstanceAs (Decidable (b.2 ≤ a.2))

noncomputable instance {α : Type} : DecidableRel (@ascPair α) :=
  fun a b => inferInstanceAs (Decidable (a.2 ≤ b.2))

instance {α : Type} : IsTotal (α × ℝ) descPair :=
  ⟨fun a b => le_total b.2 a.2⟩

instance {α : Type} : IsTrans (α × ℝ) descPair :=
  ⟨fun _ _ _ h1 h2 => le_trans h2 h1⟩

instance {α : Type} : IsTotal (α × ℝ) ascPair :=
  ⟨fun a b => le_total a.2 b.2⟩

instance {α : Type} : IsTrans (α × ℝ) ascPair :=
  ⟨fun _ _ _ h1 h2 => le_trans h1 h2⟩

/-- The score list built by `context_enriched_search`:
`for i, chunk_embedding in enumerate(embeddings):
   similarity_scores.append((i, cosine_similarity(query_embedding, chunk_embedding)))`. -/
noncomputable def similarityScores (query_embedding : List ℝ)
    (embeddings : List (List ℝ)) : List (ℕ × ℝ) :=
  embeddings.enum.map (fun p => (p.1, cosine_similarity query_embedding p.2))

/-- The effect of `similarity_scores.sort(key=lambda x: x[1], reverse=True)`:
the score list after the stable descending in-place sort. -/
noncomputable def rankedScores (query_embedding : List ℝ)
    (embeddings : List (List ℝ)) : List (ℕ × ℝ) :=
  (similarityScores query_embedding embeddings).insertionSort descPair

/-- Model of `context_enriched_search(query, text_chunks, embeddings, k, context_size)`
from `04_context_enriched_ragKemi.ipynb`.  The query arrives as its
embedding vector (the body's `create_embeddings(query)` is the external
embedder).  `similarity_scores[0][0]` on an empty corpus raises
`IndexError`; the parameter `k` is accepted but never used by the body.
`start = max(0, top_index - context_size)` and
`end = min(len(text_chunks), top_index + context_size + 1)` are over
nonnegative integers, where truncated ℕ subtraction coincides with
Python's `max(0, top_index - context_size)`; the final comprehension is
`[text_chunks[i] for i in range(start, end)]`. -/
noncomputable def context_enriched_search (query_embedding : List ℝ)
    (text_chunks : List String) (embeddings : List (List ℝ))
    (k : ℕ) (context_size : ℕ) : Except Err (List String) :=
  match rankedScores query_embedding embeddings with
  | [] => Except.error Err.indexError
  | (top_index, _) :: _ =>
      let start := max 0 (top_index - context_size)
      let stop := min text_chunks.length (top_index + context_size + 1)
      Except.ok ((List.range' start (stop - start)).map
        (fun i => text_chunks.getD i ("")))

/-- A chunk record of the header notebook: the dict
`{"header":…, "text":…, "embedding":…, "header_embedding":…}`. -/
structure EmbChunk where
  header : String
  text : String
  embedding : List ℝ
  header_embedding : List ℝ

/-- The combined score `semantic_search` assigns a chunk: the average
`(sim_text + sim_header) / 2` of the query's cosine similarity with the
chunk's text embedding and with its header embedding. -/
noncomputable def combinedScore (query_embedding : List ℝ) (chunk : EmbChunk) : ℝ :=
  (cosine_similarity query_embedding chunk.embedding +
    cosine_similarity query_embedding chunk.header_embedding) / 2

/-- The `(chunk, avg_similarity)` list built by `semantic_search`'s loop. -/
noncomputable def simPairs (query_embedding : List ℝ)
    (chunks : List EmbChunk) : List (EmbChunk × ℝ) :=
  chunks.map (fun chunk => (chunk, combinedScore query_embedding chunk))

/-- Model of `semantic_search(query, chunks, k)` from
`03_chunk_size_selectorKemi.ipynb`: score every chunk, sort the pairs
stably by score descending (`similarities.sort(key=lambda x: x[1],
reverse=True)`), and return `[x[0] for x in similarities[:k]]`. -/
noncomputable def semantic_search (query_embedding : List ℝ)
    (chunks : List EmbChunk) (k : ℕ) : List EmbChunk :=
  (((simPairs query_embedding chunks).insertionSort descPair).take k).map Prod.fst

/-- Model of `np.argsort(similarities)`: the indices that sort the score list
ascending.  Modelled as a stable ascending sort of the enumerated
list; numpy's default introsort degenerates to a (stable) insertion
sort below 16 elements, so on the small inputs considered here the
model is exact, ties included. -/
noncomputable def argsortStable (sims : List ℝ) : List ℕ :=
  (sims.enum.insertionSort ascPair).map Prod.fst

/-- Model of `retrieve_relevant_chunks(query, text_chunks, chunk_embeddings, k)`
from `03_chunk_size_selectorKemi.ipynb`:
`top_indices = np.argsort(similarities)[-k:][::-1]`, then
`[text_chunks[i] for i in top_indices]`.  Python's `[-k:]` takes the
last `k` elements, except that `k = 0` gives `[-0:]`, the whole list. -/
noncomputable def retrieve_relevant_chunks (query_embedding : List ℝ)
    (text_chunks : List String) (chunk_embeddings : List (List ℝ))
    (k : ℕ) : List String :=
  let similarities := chunk_embeddings.map
    (fun emb => cosine_similarity query_embedding emb)
  let sorted := argsortStable similarities
  let top_indices := (if k = 0 then sorted else sorted.drop (sorted.length - k)).reverse
  top_indices.map (fun i => text_chunks.getD i (""))

/-- Round to the nearest integer, ties to even — the tie rule of the
IEEE-754 default rounding mode. -/
noncomputable def roundEven (x : ℝ) : ℤ :=
  if Int.fract x < 1 / 2 then ⌊x⌋
  else if 1 / 2 < Int.fract x then ⌊x⌋ + 1
  else if Even ⌊x⌋ then ⌊x⌋ else ⌊x⌋ + 1

/-- Exponent of the unit in the last place for a binary64 value in the
binade of `x`: a double carries 53 mantissa bits, so its ulp is
`2 ^ (⌊log₂ |x|⌋ - 52)`. -/
noncomputable def ulpExp (x : ℝ) : ℤ := Int.log 2 |x| - 52

/-- IEEE-754 binary64 rounding of a real number to the nearest double
(round-to-nearest, ties to even), for the normal range; overflow and
subnormals do not arise in the values considered here. -/
noncomputable def rnd (x : ℝ) : ℝ :=
  if x = 0 then 0 else (roundEven (x / 2 ^ ulpExp x) : ℝ) * 2 ^ ulpExp x

/-- Model of `np.dot` as executed in binary64: every product and every
partial sum of the accumulation is rounded. -/
noncomputable def dot64 (v1 v2 : List ℝ) : ℝ :=
  (List.zipWith (fun a b => rnd (a * b)) v1 v2).foldl (fun acc x => rnd (acc + x)) 0

/-- Model of `np.linalg.norm` as executed in binary64: the IEEE square
root is the correctly rounded exact square root of the (rounded) sum
of squares. -/
noncomputable def npNorm64 (v : List ℝ) : ℝ := rnd (Real.sqrt (dot64 v v))

/-- The `cosine_similarity` source expression evaluated in binary64:
the rounded dot product divided by the rounded product of the two
rounded norms, with the division itself rounded. -/
noncomputable def cosine_similarity64 (vec1 vec2 : List ℝ) : ℝ :=
  rnd (dot64 vec1 vec2 / rnd (npNorm64 vec1 * npNorm64 vec2))

/-- On a valid configuration (`overlap < n`) the chunking loop produces
one chunk per offset `0, step, 2·step, …` with `step = n - overlap`. -/
theorem chunk_text_pos (text : List Char) (n overlap : ℕ) (h : overlap < n) :
    chunk_text text n overlap =
      Except.ok ((List.range' 0 ((text.length + (n - overlap) - 1) / (n - overlap))
          (n - overlap)).map (fun i => (text.drop i).take n)) := by
  have hstep : ¬ ((n : ℤ) - (overlap : ℤ)) = 0 := by omega
  have hneg : ¬ ((n : ℤ) - (overlap : ℤ)) < 0 := by omega
  have htn : ((n : ℤ) - (overlap : ℤ)).toNat = n - overlap := by omega
  simp [chunk_text, pyRange0, hstep, hneg, htn, Except.map]

/-- Claim C3: the code does not fail fast with `InvalidConfiguration`
on `size - overlap < 1`.  For `overlap > size` the loop header
`range(0, len(text), n - overlap)` is an empty descending range, so
`chunk_text` silently returns an empty chunk list; for
`overlap = size` Python raises a generic `ValueError` from `range`,
which is not the specified `InvalidConfiguration`. -/
theorem claim3_no_invalid_configuration_check :
    chunk_text ['a', 'b'] 1000 1001 = Except.ok [] ∧
    chunk_text ['a', 'b'] 1000 1000 = Except.error Err.valueError ∧
    Err.valueError ≠ Err.invalidConfiguration := by
  refine ⟨rfl, rfl, by decide⟩

/-- Claim C5: chunk coverage.  For every text, `size > 0` and
`0 ≤ overlap < size`, every character index `j` of the text lies in
some produced chunk: the chunk `ci = j / (size - overlap)` starts at
offset `ci * (size - overlap) ≤ j`, extends past `j`, and is the slice
`text[ci*step : ci*step + size]`. -/
theorem claim5_chunk_coverage (text : List Char) (n overlap j : ℕ)
    (hn : 0 < n) (ho : overlap < n) (hj : j < text.length) :
    ∃ chunks, chunk_text text n overlap = Except.ok chunks ∧
      ∃ ci, ci < chunks.length ∧
        ci * (n - overlap) ≤ j ∧ j < ci * (n - overlap) + n ∧
        chunks.getD ci [] = (text.drop (ci * (n - overlap))).take n := by
  have hstep : 0 < n - overlap := by omega
  refine ⟨_, chunk_text_pos text n overlap ho, j / (n - overlap), ?_, ?_, ?_, ?_⟩
  · have e1 : text.length + (n - overlap) - 1 = (text.length - 1) + (n - overlap) := by
      omega
    have e2 : (text.length + (n - overlap) - 1) / (n - overlap) =
        (text.length - 1) / (n - overlap) + 1 := by
      rw [e1, Nat.add_div_right _ hstep]
    have e3 : j / (n - overlap) ≤ (text.length - 1) / (n - overlap) :=
      Nat.div_le_div_right (by omega)
    simp only [List.length_map, List.length_range']
    omega
  · exact Nat.div_mul_le_self j (n - overlap)
  · have hdm : (n - overlap) * (j / (n - overlap)) + j % (n - overlap) = j :=
      Nat.div_add_mod j (n - overlap)
    have hml : j % (n - overlap) < n - overlap := Nat.mod_lt _ hstep
    rw [mul_comm]
    omega
  · have e1 : text.length + (n - overlap) - 1 = (text.length - 1) + (n - overlap) := by
      omega
    have e2 : (text.length + (n - overlap) - 1) / (n - overlap) =
        (text.length - 1) / (n - overlap) + 1 := by
      rw [e1, Nat.add_div_right _ hstep]
    have e3 : j / (n - overlap) ≤ (text.length - 1) / (n - overlap) :=
      Nat.div_le_div_right (by omega)
    have hlt : j / (n - overlap) <
        ((List.range' 0 ((text.length + (n - overlap) - 1) / (n - overlap))
          (n - overlap)).map (fun i => (text.drop i).take n)).length := by
      simp only [List.length_map, List.length_range']
      omega
    rw [List.getD_eq_getElem _ _ hlt]
    simp only [List.getElem_map, List.getElem_range']
    rw [Nat.zero_add, mul_comm]

/-- Witness for C5 at `text = "abc"`, `size = 2`, `overlap = 1`,
character index `j = 2`. -/
theorem claim5_chunk_coverage_witness :
    0 < 2 ∧ 1 < 2 ∧ 2 < (['a', 'b', 'c'] : List Char).length ∧
    (∃ chunks, chunk_text ['a', 'b', 'c'] 2 1 = Except.ok chunks ∧
      ∃ ci, ci < chunks.length ∧
        ci * (2 - 1) ≤ 2 ∧ 2 < ci * (2 - 1) + 2 ∧
        chunks.getD ci [] = ((['a', 'b', 'c'] : List Char).drop (ci * (2 - 1))).take 2) :=
  ⟨by decide, by decide, by decide,
    claim5_chunk_coverage ['a', 'b', 'c'] 2 1 2 (by decide) (by decide) (by decide)⟩

/-- Claim C8: a header-generation failure is not tolerated.  With the
valid configuration `size = 2`, `overlap = 0` on `"abcd"` (two chunks),
a collaborator that fails on the second chunk makes the whole
ingestion abort with the propagated error — no chunk list, no sentinel
header — while the same call with a healthy collaborator returns both
chunks.  The loop body has no try/except, so a per-chunk failure
discards everything. -/
theorem claim8_header_failure_aborts_ingestion :
    chunk_text_with_headers ['a', 'b', 'c', 'd'] 2 0
        (fun chunk => if chunk = ['c', 'd'] then Except.error Err.completionUnavailable
          else Except.ok ("T")) = Except.error Err.completionUnavailable ∧
    chunk_text_with_headers ['a', 'b', 'c', 'd'] 2 0 (fun _ => Except.ok ("T")) =
      Except.ok [⟨"T", ['a', 'b']⟩, ⟨"T", ['c', 'd']⟩] :=
  ⟨rfl, rfl⟩

theorem dot_cons (x y : ℝ) (t s : List ℝ) :
    dot (x :: t) (y :: s) = x * y + dot t s := by
  simp [dot]

theorem dot_self_nonneg (v : List ℝ) : 0 ≤ dot v v := by
  rw [dot, List.zipWith_same]
  refine List.sum_nonneg ?_
  intro x hx
  rcases List.mem_map.1 hx with ⟨a, _, rfl⟩
  exact mul_self_nonneg a

theorem dot_comm (v w : List ℝ) : dot v w = dot w v := by
  rw [dot, dot, List.zipWith_comm_of_comm (fun a b => a * b) mul_comm]

theorem dot_neg_right (u v : List ℝ) :
    dot u (v.map (fun x => -x)) = -(dot u v) := by
  induction u generalizing v with
  | nil => simp [dot]
  | cons x t ih =>
      cases v with
      | nil => simp [dot]
      | cons y s => rw [List.map_cons, dot_cons, dot_cons, ih s]; ring

theorem npNorm_neg (v : List ℝ) : npNorm (v.map (fun x => -x)) = npNorm v := by
  have h : dot (v.map (fun x => -x)) (v.map (fun x => -x)) = dot v v := by
    rw [dot_neg_right, dot_comm, dot_neg_right]; ring
  rw [npNorm, npNorm, h]

/-- Claim C6: `cosine_similarity` on a zero-norm vector neither raises
a `DegenerateVector` error nor returns a defined sentinel: the
denominator `‖vec1‖·‖vec2‖` is `0.0` and numpy evaluates the division
to the non-finite value nan (with only a RuntimeWarning), which then
propagates to the caller. -/
theorem claim6_zero_norm_propagates_nan :
    cosine_similarity_ieee [0, 0] [3, 4] = FVal.nan ∧
    ∀ x : ℝ, FVal.nan ≠ FVal.num x := by
  constructor
  · have h0 : npNorm [(0 : ℝ), 0] = 0 := by simp [npNorm, dot]
    simp [cosine_similarity_ieee, fdiv, h0]
  · exact fun x h => FVal.noConfusion h

theorem roundEven_eq_of_near (q : ℝ) (m : ℤ) (h1 : (m : ℝ) - 1 / 2 < q)
    (h2 : q < (m : ℝ) + 1 / 2) : roundEven q = m := by
  rcases le_or_lt (m : ℝ) q with hle | hlt
  · have hfl : ⌊q⌋ = m := Int.floor_eq_iff.2 ⟨hle, by push_cast; linarith⟩
    have hfr : Int.fract q < 1 / 2 := by
      rw [Int.fract, hfl]
      push_cast
      linarith
    rw [roundEven, if_pos hfr, hfl]
  · have hfl : ⌊q⌋ = m - 1 := by
      refine Int.floor_eq_iff.2 ⟨?_, ?_⟩ <;> push_cast <;> linarith
    have hfr : 1 / 2 < Int.fract q := by
      rw [Int.fract, hfl]
      push_cast
      linarith
    rw [roundEven, if_neg (not_lt.2 (le_of_lt hfr)), if_pos hfr, hfl]
    omega

theorem int_log_eq (x : ℝ) (e : ℤ) (h1 : (2 : ℝ) ^ e ≤ x)
    (h2 : x < (2 : ℝ) ^ (e + 1)) : Int.log 2 x = e := by
  have hx : 0 < x := lt_of_lt_of_le (by positivity) h1
  have hle : e ≤ Int.log 2 x := by
    refine (Int.zpow_le_iff_le_log (by norm_num) hx).1 ?_
    push_cast
    exact h1
  have hlt : Int.log 2 x < e + 1 := by
    refine (Int.lt_zpow_iff_log_lt (by norm_num) hx).1 ?_
    push_cast
    exact h2
  omega

/-- Evaluation scheme for `rnd`: if `x` sits in the binade `[2^e, 2^(e+1))`
and its scaled mantissa `q = x / 2^(e-52)` lies strictly within half a
unit of the integer `m`, then `x` rounds to the double `m · 2^(e-52)`. -/
theorem rnd_eval (x q r : ℝ) (e m : ℤ) (hx : ¬ x = 0) (hlog : Int.log 2 |x| = e)
    (hq : x / 2 ^ (e - 52) = q) (h1 : (m : ℝ) - 1 / 2 < q) (h2 : q < (m : ℝ) + 1 / 2)
    (hr : (m : ℝ) * 2 ^ (e - 52) = r) : rnd x = r := by
  rw [rnd, if_neg hx, ulpExp, hlog, hq, roundEven_eq_of_near q m h1 h2, hr]

theorem rnd_one : rnd (1 : ℝ) = 1 := by
  refine rnd_eval 1 (2 ^ 52) 1 0 (2 ^ 52) (by norm_num) ?_ (by norm_num)
    (by push_cast; norm_num) (by push_cast; norm_num) (by push_cast; norm_num)
  rw [abs_one]
  exact int_log_eq 1 0 (by norm_num) (by norm_num)

theorem rnd_two : rnd (2 : ℝ) = 2 := by
  refine rnd_eval 2 (2 ^ 52) 2 1 (2 ^ 52) (by norm_num) ?_ (by norm_num)
    (by push_cast; norm_num) (by push_cast; norm_num) (by push_cast; norm_num)
  rw [abs_of_pos (by norm_num : (0 : ℝ) < 2)]
  exact int_log_eq 2 1 (by norm_num) (by norm_num)

theorem rnd_neg_one : rnd (-1 : ℝ) = -1 := by
  refine rnd_eval (-1) (-(2 ^ 52)) (-1) 0 (-(2 ^ 52)) (by norm_num) ?_ (by norm_num)
    (by push_cast; norm_num) (by push_cast; norm_num) (by push_cast; norm_num)
  rw [abs_neg, abs_one]
  exact int_log_eq 1 0 (by norm_num) (by norm_num)

theorem rnd_neg_two : rnd (-2 : ℝ) = -2 := by
  refine rnd_eval (-2) (-(2 ^ 52)) (-2) 1 (-(2 ^ 52)) (by norm_num) ?_ (by norm_num)
    (by push_cast; norm_num) (by push_cast; norm_num) (by push_cast; norm_num)
  rw [abs_neg, abs_of_pos (by norm_num : (0 : ℝ) < 2)]
  exact int_log_eq 2 1 (by norm_num) (by norm_num)

/-- The binary64 square root of 2 is `6369051672525773 / 2^52`
(correct rounding established by squaring the half-ulp bounds). -/
theorem rnd_sqrt_two : rnd (Real.sqrt 2) = 6369051672525773 / 2 ^ 52 := by
  have hs0 : (0 : ℝ) < Real.sqrt 2 := Real.sqrt_pos.2 (by norm_num)
  have hsq : Real.sqrt 2 ^ 2 = 2 := Real.sq_sqrt (by norm_num)
  have hlog : Int.log 2 |Real.sqrt 2| = 0 := by
    rw [abs_of_pos hs0]
    refine int_log_eq _ 0 ?_ ?_
    · rw [zpow_zero]
      exact Real.one_le_sqrt.2 (by norm_num)
    · have h21 : ((2 : ℝ) ^ ((0 : ℤ) + 1)) = 2 := by norm_num
      rw [h21]
      exact (Real.sqrt_lt' (by norm_num)).2 (by norm_num)
  have hq : Real.sqrt 2 / 2 ^ ((0 : ℤ) - 52) = Real.sqrt 2 * 2 ^ 52 := by
    rw [show ((0 : ℤ) - 52) = -(52 : ℤ) by norm_num, zpow_neg, div_eq_mul_inv, inv_inv]
    norm_num
  have hlow : ((6369051672525773 : ℤ) : ℝ) - 1 / 2 < Real.sqrt 2 * 2 ^ 52 := by
    refine lt_of_pow_lt_pow_left₀ 2 (by positivity) ?_
    rw [mul_pow, hsq]
    push_cast
    norm_num
  have hhigh : Real.sqrt 2 * 2 ^ 52 < ((6369051672525773 : ℤ) : ℝ) + 1 / 2 := by
    refine lt_of_pow_lt_pow_left₀ 2 (by push_cast; norm_num) ?_
    rw [mul_pow, hsq]
    push_cast
    norm_num
  exact rnd_eval _ _ _ 0 6369051672525773 hs0.ne' hlog hq hlow hhigh
    (by push_cast; norm_num)

/-- Squaring the binary64 square root of 2 in binary64 rounds up to
`2 + 2^-51 = 4503599627370497 / 2^51`; this is the program's
denominator `norm * norm` at `v = [1.0, 1.0]`. -/
theorem rnd_sqrt_two_sq :
    rnd ((6369051672525773 / 2 ^ 52 : ℝ) * (6369051672525773 / 2 ^ 52)) =
      4503599627370497 / 2 ^ 51 := by
  refine rnd_eval _ ((6369051672525773 : ℝ) ^ 2 / 2 ^ 53) _ 1 4503599627370497
    (by norm_num) ?_ ?_ (by push_cast; norm_num) (by push_cast; norm_num)
    (by push_cast; norm_num)
  · rw [abs_of_pos (by norm_num)]
    exact int_log_eq _ 1 (by norm_num) (by norm_num)
  · norm_num

/-- Dividing 2 by `2 + 2^-51` in binary64 yields `1 - 2^-52`
(`0.9999999999999998`), one ulp below 1. -/
theorem rnd_quot :
    rnd ((2 : ℝ) / (4503599627370497 / 2 ^ 51)) = 1 - 1 / 2 ^ 52 := by
  refine rnd_eval _ ((2 : ℝ) ^ 105 / 4503599627370497) _ (-1) 9007199254740990
    (by norm_num) ?_ ?_ (by push_cast; norm_num) (by push_cast; norm_num)
    (by push_cast; norm_num)
  · rw [abs_of_pos (by norm_num)]
    exact int_log_eq _ (-1) (by norm_num) (by norm_num)
  · norm_num

/-- Dividing -2 by `2 + 2^-51` in binary64 yields `-(1 - 2^-52)`. -/
theorem rnd_quot_neg :
    rnd ((-2 : ℝ) / (4503599627370497 / 2 ^ 51)) = -(1 - 1 / 2 ^ 52) := by
  refine rnd_eval _ (-((2 : ℝ) ^ 105 / 4503599627370497)) _ (-1) (-9007199254740990)
    (by norm_num) ?_ ?_ (by push_cast; norm_num) (by push_cast; norm_num)
    (by push_cast; norm_num)
  · rw [show ((-2 : ℝ) / (4503599627370497 / 2 ^ 51)) =
      -(2 / (4503599627370497 / 2 ^ 51)) by ring, abs_neg,
      abs_of_pos (by norm_num)]
    exact int_log_eq _ (-1) (by norm_num) (by norm_num)
  · norm_num

theorem dot64_ones : dot64 [1, 1] [1, 1] = 2 := by
  norm_num [dot64, rnd_one, rnd_two]

theorem dot64_ones_neg : dot64 [1, 1] [-1, -1] = -2 := by
  norm_num [dot64, rnd_neg_one, rnd_neg_two]

theorem dot64_neg_ones : dot64 [-1, -1] [-1, -1] = 2 := by
  norm_num [dot64, rnd_one, rnd_two]

theorem npNorm64_ones : npNorm64 [1, 1] = 6369051672525773 / 2 ^ 52 := by
  rw [npNorm64, dot64_ones, rnd_sqrt_two]

theorem npNorm64_neg_ones : npNorm64 [-1, -1] = 6369051672525773 / 2 ^ 52 := by
  rw [npNorm64, dot64_neg_ones, rnd_sqrt_two]

theorem dot64_comm (a b : List ℝ) : dot64 a b = dot64 b a := by
  rw [dot64, dot64,
    List.zipWith_comm_of_comm (fun x y => rnd (x * y))
      (fun x y => by show rnd (x * y) = rnd (y * x); rw [mul_comm])]

theorem cosine_similarity64_comm (a b : List ℝ) :
    cosine_similarity64 a b = cosine_similarity64 b a := by
  rw [cosine_similarity64, cosine_similarity64, dot64_comm a b,
    mul_comm (npNorm64 a) (npNorm64 b)]

/-- Counterexample to C9 as stated: at `v = [1.0, 1.0]` the
double-precision program computes `sqrt(2) * sqrt(2)` as
`2.0000000000000004` (one ulp above 2) and returns
`0.9999999999999998 = 1 - 2^-52`, not `1.0`; against `-v` it returns
`-(1 - 2^-52)`, not `-1.0`.  The exact identities of the claim do not
survive binary64 rounding. -/
theorem claim9_counterexample :
    cosine_similarity64 [1, 1] [1, 1] = 1 - 1 / 2 ^ 52 ∧
    cosine_similarity64 [1, 1] [1, 1] ≠ 1 ∧
    cosine_similarity64 [1, 1] (([1, 1] : List ℝ).map (fun x => -x)) =
      -(1 - 1 / 2 ^ 52) ∧
    cosine_similarity64 [1, 1] (([1, 1] : List ℝ).map (fun x => -x)) ≠ -1 := by
  have hm : (([1, 1] : List ℝ).map (fun x => -x)) = [-1, -1] := by norm_num
  have hpp : cosine_similarity64 [1, 1] [1, 1] = 1 - 1 / 2 ^ 52 := by
    rw [cosine_similarity64, dot64_ones, npNorm64_ones, rnd_sqrt_two_sq, rnd_quot]
  have hpm : cosine_similarity64 [1, 1] (([1, 1] : List ℝ).map (fun x => -x)) =
      -(1 - 1 / 2 ^ 52) := by
    rw [hm, cosine_similarity64, dot64_ones_neg, npNorm64_ones, npNorm64_neg_ones,
      rnd_sqrt_two_sq, rnd_quot_neg]
  refine ⟨hpp, ?_, hpm, ?_⟩
  · rw [hpp]
    norm_num
  · rw [hpm]
    norm_num

/-- Amended C9: the identities hold exactly over real arithmetic —
`cosine_similarity(v, v) = 1` and `cosine_similarity(v, -v) = -1` for
every vector of nonzero norm, and `cosine_similarity` is symmetric —
and of the three, only symmetry survives binary64 evaluation exactly
(the products, sums and norms of `a·b` and `b·a` are identical
operation for operation); the double-precision program merely
approximates the two ±1 identities, returning `1 - 2^-52` at
`v = [1.0, 1.0]`. -/
theorem claim9_exact_identities (v a b : List ℝ)
    (hv : dot v v ≠ 0) (hab : a.length = b.length) :
    cosine_similarity v v = 1 ∧
    cosine_similarity v (v.map (fun x => -x)) = -1 ∧
    cosine_similarity a b = cosine_similarity b a ∧
    cosine_similarity64 a b = cosine_similarity64 b a := by
  refine ⟨?_, ?_, ?_, cosine_similarity64_comm a b⟩
  · rw [cosine_similarity, npNorm, Real.mul_self_sqrt (dot_self_nonneg v), div_self hv]
  · rw [cosine_similarity, npNorm_neg, dot_neg_right, npNorm,
      Real.mul_self_sqrt (dot_self_nonneg v), neg_div, div_self hv]
  · rw [cosine_similarity, cosine_similarity, dot_comm a b, mul_comm]

/-- Witness for the amended C9 at `v = [1]`, `a = [1, 2]`, `b = [3, 4]`. -/
theorem claim9_exact_identities_witness :
    dot [1] [1] ≠ 0 ∧ ([1, 2] : List ℝ).length = ([3, 4] : List ℝ).length ∧
    (cosine_similarity [1] [1] = 1 ∧
     cosine_similarity [1] (([1] : List ℝ).map (fun x => -x)) = -1 ∧
     cosine_similarity [1, 2] [3, 4] = cosine_similarity [3, 4] [1, 2] ∧
     cosine_similarity64 [1, 2] [3, 4] = cosine_similarity64 [3, 4] [1, 2]) :=
  ⟨by norm_num [dot], by simp,
    claim9_exact_identities [1] [1, 2] [3, 4] (by norm_num [dot]) (by simp)⟩

/-- Reading consecutive indices `s, s+1, …, s+cnt-1` out of a list is
the contiguous slice `l[s : s+cnt]`, provided the indices stay in
bounds. -/
theorem range'_map_getD (l : List String) (s cnt : ℕ) (h : s + cnt ≤ l.length) :
    (List.range' s cnt).map (fun i => l.getD i ("")) = (l.drop s).take cnt := by
  induction cnt generalizing s with
  | zero => simp
  | succ m ih =>
      have hs : s < l.length := by omega
      rw [List.range'_succ, List.map_cons, List.drop_eq_getElem_cons hs,
        List.take_succ_cons, List.getD_eq_getElem _ _ hs]
      exact congrArg _ (ih (s + 1) (by omega))

/-- Unfolding `context_enriched_search` when the ranked score list is
nonempty: the returned comprehension `[text_chunks[i] for i in
range(start, end)]`. -/
theorem context_enriched_search_cons (qe : List ℝ) (tc : List String)
    (emb : List (List ℝ)) (k cs t : ℕ) (s : ℝ) (tl : List (ℕ × ℝ))
    (h : rankedScores qe emb = (t, s) :: tl) :
    context_enriched_search qe tc emb k cs =
      Except.ok ((List.range' (max 0 (t - cs))
          (min tc.length (t + cs + 1) - max 0 (t - cs))).map
        (fun i => tc.getD i (""))) := by
  unfold context_enriched_search
  rw [h]

/-- Claim C1: neighbor-window retrieval.  For a non-empty corpus with
parallel embeddings, the function returns exactly the contiguous slice
of the corpus from `max(0, t - contextRadius)` to
`min(len(corpus) - 1, t + contextRadius)` inclusive (in original
document order), where `t` is the top-ranked index; in particular
every returned chunk comes from an in-bounds corpus position. -/
theorem claim1_neighbor_window (qe : List ℝ) (corpus : List String)
    (emb : List (List ℝ)) (k cs : ℕ)
    (hne : corpus ≠ []) (hlen : emb.length = corpus.length) :
    ∃ t s, (rankedScores qe emb).head? = some (t, s) ∧ t < corpus.length ∧
      context_enriched_search qe corpus emb k cs =
        Except.ok ((corpus.drop (t - cs)).take
          (min (corpus.length - 1) (t + cs) + 1 - (t - cs))) := by
  have hcorp : 0 < corpus.length := List.length_pos.mpr hne
  have hperm : (rankedScores qe emb).Perm (similarityScores qe emb) := by
    unfold rankedScores
    exact List.perm_insertionSort _ _
  have hlens : (similarityScores qe emb).length = emb.length := by
    simp [similarityScores]
  cases hr : rankedScores qe emb with
  | nil =>
      exfalso
      have h1 := hperm.length_eq
      rw [hr] at h1
      simp only [List.length_nil] at h1
      omega
  | cons hd tl =>
      obtain ⟨t, s⟩ := hd
      have hmem : (t, s) ∈ similarityScores qe emb := by
        refine hperm.subset ?_
        rw [hr]
        exact List.mem_cons_self _ _
      have ht : t < corpus.length := by
        rcases List.mem_map.1 hmem with ⟨p, hp, heq⟩
        obtain ⟨i, x⟩ := p
        have hb := List.mem_enumFrom hp
        have : i = t := by
          simpa using congrArg Prod.fst heq
        omega
      refine ⟨t, s, rfl, ht, ?_⟩
      rw [context_enriched_search_cons qe corpus emb k cs t s tl hr]
      rw [Nat.zero_max]
      rw [range'_map_getD corpus (t - cs) _ (by omega)]
      have : min corpus.length (t + cs + 1) - (t - cs) =
          min (corpus.length - 1) (t + cs) + 1 - (t - cs) := by omega
      rw [this]

/-- Witness for C1: corpus `["a","b","c"]` with parallel embeddings. -/
theorem claim1_neighbor_window_witness :
    (["a", "b", "c"] : List String) ≠ [] ∧
    ([[1], [2], [3]] : List (List ℝ)).length = (["a", "b", "c"] : List String).length ∧
    (∃ t s, (rankedScores [1] [[1], [2], [3]]).head? = some (t, s) ∧
      t < (["a", "b", "c"] : List String).length ∧
      context_enriched_search [1] ["a", "b", "c"] [[1], [2], [3]] 1 1 =
        Except.ok (((["a", "b", "c"] : List String).drop (t - 1)).take
          (min ((["a", "b", "c"] : List String).length - 1) (t + 1) + 1 - (t - 1)))) :=
  ⟨by simp, by simp,
    claim1_neighbor_window [1] ["a", "b", "c"] [[1], [2], [3]] 1 1 (by simp) (by simp)⟩

/-- Counterexample to C7 as stated: on an empty corpus
`context_enriched_search` fails with an uncaught `IndexError` (from
`similarity_scores[0]` on the empty score list), which is not the
specified `EmptyCorpus` error. -/
theorem claim7_counterexample :
    context_enriched_search [1] [] [] 1 1 = Except.error Err.indexError ∧
    Err.indexError ≠ Err.emptyCorpus :=
  ⟨rfl, by decide⟩

/-- Amended C7: neighbor-window retrieval on an empty corpus always
fails, for every query embedding, `k` and context radius — but with a
generic `IndexError`, not a named `EmptyCorpus` error. -/
theorem claim7_empty_corpus_index_error (qe : List ℝ) (k cs : ℕ) :
    context_enriched_search qe [] [] k cs = Except.error Err.indexError :=
  rfl

/-- Claim C10: the parameter `k` of `context_enriched_search` is
accepted but never read by the body, so any two calls differing only
in `k` return identical results. -/
theorem claim10_k_has_no_effect (qe : List ℝ) (tc : List String)
    (emb : List (List ℝ)) (cs k1 k2 : ℕ) :
    context_enriched_search qe tc emb k1 cs =
      context_enriched_search qe tc emb k2 cs :=
  rfl

/-- Claim C2: header-weighted retrieval.  Every chunk's combined score
is the arithmetic mean of its text and header similarities to the
query, and `semantic_search` returns the first `k` elements of a
ranking of the whole corpus sorted by non-increasing combined score —
hence exactly `min(k, corpusSize)` chunks, and the entire ranked
corpus (without error) whenever `k` exceeds the corpus size. -/
theorem claim2_header_weighted_retrieval (qe : List ℝ) (chunks : List EmbChunk)
    (k : ℕ) (hk : 1 ≤ k) :
    ∃ ranked : List EmbChunk, ranked.Perm chunks ∧
      (ranked.map (combinedScore qe)).Sorted (fun a b => b ≤ a) ∧
      semantic_search qe chunks k = ranked.take k ∧
      (semantic_search qe chunks k).length = min k chunks.length ∧
      (chunks.length ≤ k → semantic_search qe chunks k = ranked) ∧
      ∀ c, combinedScore qe c =
        (cosine_similarity qe c.embedding +
          cosine_similarity qe c.header_embedding) / 2 := by
  have hperm : ((simPairs qe chunks).insertionSort descPair).Perm (simPairs qe chunks) :=
    List.perm_insertionSort _ _
  have hfst : (simPairs qe chunks).map Prod.fst = chunks := by
    simp only [simPairs, List.map_map]
    have hid : (Prod.fst ∘ fun chunk => (chunk, combinedScore qe chunk)) =
        (id : EmbChunk → EmbChunk) := rfl
    rw [hid, List.map_id]
  have hpc : (((simPairs qe chunks).insertionSort descPair).map Prod.fst).Perm chunks := by
    have h := hperm.map Prod.fst
    rw [hfst] at h
    exact h
  have hsorted : ((simPairs qe chunks).insertionSort descPair).Pairwise descPair :=
    List.sorted_insertionSort descPair (simPairs qe chunks)
  have hscore : ∀ p ∈ (simPairs qe chunks).insertionSort descPair,
      p.2 = combinedScore qe p.1 := by
    intro p hp
    have hp2 : p ∈ simPairs qe chunks := hperm.subset hp
    rcases List.mem_map.1 hp2 with ⟨c, _, rfl⟩
    rfl
  refine ⟨((simPairs qe chunks).insertionSort descPair).map Prod.fst,
    hpc, ?_, ?_, ?_, ?_, fun c => rfl⟩
  · rw [List.map_map]
    refine List.pairwise_map.2 ?_
    refine hsorted.imp_of_mem ?_
    intro p q hp hq hpq
    have e1 := hscore p hp
    have e2 := hscore q hq
    simpa [Function.comp, ← e1, ← e2] using hpq
  · rw [← List.map_take]
    rfl
  · rw [semantic_search, List.length_map, List.length_take,
      List.length_insertionSort]
    simp [simPairs]
  · intro hle
    rw [semantic_search]
    have hlen : ((simPairs qe chunks).insertionSort descPair).length = chunks.length := by
      rw [List.length_insertionSort]
      simp [simPairs]
    rw [List.take_of_length_le (by omega)]

/-- Witness for C2: a one-chunk corpus with `k = 5 > 1`. -/
theorem claim2_header_weighted_retrieval_witness :
    1 ≤ 5 ∧
    (∃ ranked : List EmbChunk,
      ranked.Perm [⟨"h", "t", [1], [1]⟩] ∧
      (ranked.map (combinedScore [1])).Sorted (fun a b => b ≤ a) ∧
      semantic_search [1] [⟨"h", "t", [1], [1]⟩] 5 = ranked.take 5 ∧
      (semantic_search [1] [⟨"h", "t", [1], [1]⟩] 5).length =
        min 5 ([(⟨"h", "t", [1], [1]⟩ : EmbChunk)] : List EmbChunk).length ∧
      (([(⟨"h", "t", [1], [1]⟩ : EmbChunk)] : List EmbChunk).length ≤ 5 →
        semantic_search [1] [⟨"h", "t", [1], [1]⟩] 5 = ranked) ∧
      ∀ c, combinedScore [1] c =
        (cosine_similarity [1] c.embedding +
          cosine_similarity [1] c.header_embedding) / 2) :=
  ⟨by decide, claim2_header_weighted_retrieval [1] [⟨"h", "t", [1], [1]⟩] 5 (by decide)⟩

/-- Stability of the insertion-sort model of Python's stable sort /
numpy's argsort: for a sort relation that never moves an element past
one with an equal key, the elements carrying any fixed score `s` come
out in exactly their original order. -/
theorem insertionSort_filter_score {α : Type} (r : α × ℝ → α × ℝ → Prop)
    [DecidableRel r] (hr : ∀ x b : α × ℝ, ¬ r x b → x.2 ≠ b.2) (s : ℝ)
    (l : List (α × ℝ)) :
    (l.insertionSort r).filter (fun x => decide (x.2 = s)) =
      l.filter (fun x => decide (x.2 = s)) := by
  induction l with
  | nil => rfl
  | cons x t ih =>
      rw [List.insertionSort, List.orderedInsert_eq_take_drop, List.filter_append]
      by_cases hx : x.2 = s
      · have htw : ((t.insertionSort r).takeWhile
            (fun b => decide (¬ r x b))).filter (fun y : α × ℝ => decide (y.2 = s)) = [] := by
          rw [List.filter_eq_nil_iff]
          intro b hb
          have hnb : ¬ r x b := by simpa using List.mem_takeWhile_imp hb
          have hbs : b.2 ≠ s := fun h => (hr x b hnb) (hx.trans h.symm)
          simpa using hbs
        have hxd : decide (x.2 = s) = true := by simpa using hx
        have hdw : ((t.insertionSort r).dropWhile
            (fun b => decide (¬ r x b))).filter (fun y : α × ℝ => decide (y.2 = s)) =
            (t.insertionSort r).filter (fun y : α × ℝ => decide (y.2 = s)) := by
          conv_rhs => rw [← List.takeWhile_append_dropWhile
            (fun b => decide (¬ r x b)) (t.insertionSort r)]
          rw [List.filter_append, htw, List.nil_append]
        rw [htw, List.nil_append]
        simp only [List.filter_cons, hxd, if_true]
        rw [hdw, ih]
      · have hxd : decide (x.2 = s) = false := by simpa using hx
        simp only [List.filter_cons, hxd, Bool.false_eq_true, if_false]
        rw [← List.filter_append, List.takeWhile_append_dropWhile, ih]

/-- Every pair produced by `enumerate` carries the value stored at its
index. -/
theorem sims_enum_val (sims : List ℝ) :
    ∀ p ∈ sims.enum, sims.getD p.1 0 = p.2 := by
  intro p hp
  obtain ⟨i, x⟩ := p
  have hb := List.mem_enumFrom hp
  have hlt : i < sims.length := by omega
  rw [List.getD_eq_getElem _ _ hlt]
  have hx := hb.2.2
  simp only [Nat.sub_zero] at hx
  exact hx.symm

/-- Counterexample to C4 as stated: in `retrieve_relevant_chunks` the
candidates `[2,0]` (chunk `"a"`, position 0) and `[1,0]` (chunk `"b"`,
position 1) both score cosine similarity `1` against the query
`[1,0]`, yet the function returns `["b","a"]`: `np.argsort` orders the
tie ascending as `[0,1]` and the final `[::-1]` reversal flips it, so
equal-scored candidates come out in reverse original order, not
original order. -/
theorem claim4_counterexample :
    cosine_similarity [1, 0] [2, 0] = 1 ∧
    cosine_similarity [1, 0] [1, 0] = 1 ∧
    retrieve_relevant_chunks [1, 0] ["a", "b"] [[2, 0], [1, 0]] 2 = ["b", "a"] ∧
    (["b", "a"] : List String) ≠ ["a", "b"] := by
  have hd11 : dot [(1 : ℝ), 0] [1, 0] = 1 := by norm_num [dot]
  have hd12 : dot [(1 : ℝ), 0] [2, 0] = 2 := by norm_num [dot]
  have hd22 : dot [(2 : ℝ), 0] [2, 0] = 4 := by norm_num [dot]
  have hn1 : npNorm [(1 : ℝ), 0] = 1 := by rw [npNorm, hd11, Real.sqrt_one]
  have hn2 : npNorm [(2 : ℝ), 0] = 2 := by
    rw [npNorm, hd22, show (4 : ℝ) = 2 ^ 2 by norm_num,
      Real.sqrt_sq (by norm_num : (0 : ℝ) ≤ 2)]
  have h1 : cosine_similarity [1, 0] [2, 0] = 1 := by
    rw [cosine_similarity, hd12, hn1, hn2]
    norm_num
  have h2 : cosine_similarity [1, 0] [1, 0] = 1 := by
    rw [cosine_similarity, hd11, hn1]
    norm_num
  refine ⟨h1, h2, ?_, by decide⟩
  simp only [retrieve_relevant_chunks, argsortStable, List.map_cons, List.map_nil,
    h1, h2, List.enum, List.enumFrom, List.insertionSort, List.orderedInsert,
    ascPair, le_refl, if_true, List.length_cons, List.length_nil,
    List.reverse_cons, List.reverse_nil]
  norm_num [List.getD]

theorem descPair_ne {α : Type} : ∀ x b : α × ℝ, ¬ descPair x b → x.2 ≠ b.2 :=
  fun _ _ h => ne_of_lt (lt_of_not_le h)

theorem ascPair_ne {α : Type} : ∀ x b : α × ℝ, ¬ ascPair x b → x.2 ≠ b.2 :=
  fun _ _ h => ne_of_gt (lt_of_not_le h)

/-- Amended C4: every ranking step is deterministic and sorted by
non-increasing score; the stable tie-break by original candidate order
holds for the Python `sort(key=…, reverse=True)` rankings of
`context_enriched_search` and `semantic_search`, but
`retrieve_relevant_chunks` reverses it — its
`np.argsort(similarities)[-k:][::-1]` pipeline emits equal-scored
candidates in reverse original order (the filter identities below pin
the exact order of each score class). -/
theorem claim4_ranking_stability_amended :
    (∀ (qe : List ℝ) (emb : List (List ℝ)),
        (rankedScores qe emb).Pairwise descPair ∧
        ∀ s : ℝ, (rankedScores qe emb).filter (fun x => decide (x.2 = s)) =
          (similarityScores qe emb).filter (fun x => decide (x.2 = s))) ∧
    (∀ (qe : List ℝ) (chunks : List EmbChunk),
        ((simPairs qe chunks).insertionSort descPair).Pairwise descPair ∧
        ∀ s : ℝ, ((simPairs qe chunks).insertionSort descPair).filter
            (fun x => decide (x.2 = s)) =
          (simPairs qe chunks).filter (fun x => decide (x.2 = s))) ∧
    (∀ sims : List ℝ,
        ((argsortStable sims).reverse).Pairwise
          (fun i j => sims.getD j 0 ≤ sims.getD i 0) ∧
        ∀ s : ℝ, ((argsortStable sims).reverse).filter
            (fun i => decide (sims.getD i 0 = s)) =
          ((sims.enum.filter (fun p => decide (p.2 = s))).map Prod.fst).reverse) := by
  refine ⟨?_, ?_, ?_⟩
  · intro qe emb
    exact ⟨List.sorted_insertionSort descPair (similarityScores qe emb),
      fun s => insertionSort_filter_score descPair descPair_ne s _⟩
  · intro qe chunks
    exact ⟨List.sorted_insertionSort descPair (simPairs qe chunks),
      fun s => insertionSort_filter_score descPair descPair_ne s _⟩
  · intro sims
    have hmem : ∀ p ∈ sims.enum.insertionSort ascPair, sims.getD p.1 0 = p.2 :=
      fun p hp => sims_enum_val sims p ((List.perm_insertionSort _ _).subset hp)
    constructor
    · have hsorted : (sims.enum.insertionSort ascPair).Pairwise ascPair :=
        List.sorted_insertionSort ascPair sims.enum
      have h2 : (sims.enum.insertionSort ascPair).Pairwise
          (fun a b => sims.getD a.1 0 ≤ sims.getD b.1 0) := by
        refine hsorted.imp_of_mem ?_
        intro a b ha hb hab
        rw [hmem a ha, hmem b hb]
        exact hab
      rw [argsortStable, ← List.map_reverse]
      refine List.pairwise_map.2 ?_
      rw [List.pairwise_reverse]
      exact h2
    · intro s
      rw [List.filter_reverse, argsortStable, List.filter_map]
      have hc : (sims.enum.insertionSort ascPair).filter
            ((fun i => decide (sims.getD i 0 = s)) ∘ Prod.fst) =
          (sims.enum.insertionSort ascPair).filter (fun p => decide (p.2 = s)) := by
        refine List.filter_congr ?_
        intro p hp
        simp only [Function.comp, hmem p hp]
      rw [hc, insertionSort_filter_score ascPair ascPair_ne s]

end Rag
